import Mathlib

/-!
Shallow embedding of `src/utils.js` of the asteroids-fetcher repository:
the resilient HTTP client (`HttpClient`), the rate transformer
(`dataToLines`), the bounded-concurrency scheduler (`Concurrency`) and the
orchestrator (`Fetcher`).  JavaScript numbers carried by rate snapshots are
modelled as exact rationals together with the distinguished values `NaN`,
`null` and `undefined`; asynchronous execution of the scheduler is modelled
as a small-step transition system over explicit worker states, with the
adversarial event loop choosing which worker advances at every step.
-/

/-- Three-way lexicographic comparison of lists of naturals.  This is the
comparison kernel shared by the code-point string order and by the modelled
collation order. -/
def lexCmp : List Nat → List Nat → Ordering
  | [], [] => .eq
  | [], _ :: _ => .lt
  | _ :: _, [] => .gt
  | a :: as, b :: bs => if a < b then .lt else if b < a then .gt else lexCmp as bs

/-- Primary collation weight of a character.  Modelled from the host
platform: `String.prototype.localeCompare` under the default root collation
compares ASCII letters case-insensitively at the primary level, so an
uppercase letter receives the weight of its lowercase form. -/
def primaryOf (c : Char) : Nat :=
  if 65 ≤ c.toNat ∧ c.toNat ≤ 90 then c.toNat + 32 else c.toNat

/-- Tertiary collation weight of a character: in the root collation a
lowercase letter sorts before its uppercase form, so uppercase gets the
larger tertiary weight. -/
def tertiaryOf (c : Char) : Nat :=
  if 65 ≤ c.toNat ∧ c.toNat ≤ 90 then 1 else 0

/-- Collation sort key of a string: all primary weights, a zero separator,
then all tertiary weights — the standard UCA sort-key layout. -/
def collKey (s : String) : List Nat :=
  s.toList.map primaryOf ++ 0 :: s.toList.map tertiaryOf

/-- Three-way result of the modelled `localeCompare`. -/
def localeCmp (a b : String) : Ordering :=
  lexCmp (collKey a) (collKey b)

/-- Modelled `a.localeCompare(b)`: negative, zero or positive. -/
def localeCompare (a b : String) : Int :=
  match localeCmp a b with
  | .lt => -1
  | .eq => 0
  | .gt => 1

/-- Plain code-point comparison of two strings (the locale-independent
order the specification describes). -/
def codePointCmp (a b : String) : Ordering :=
  lexCmp (a.toList.map Char.toNat) (b.toList.map Char.toNat)

/-- The Boolean "less or equal" order induced by the comparator
`(a, b) => a.localeCompare(b)` passed to `Array.prototype.sort` in
`dataToLines`: `a` may stay before `b` exactly when the comparator is
non-positive. -/
def byLocale (a b : String) : Bool :=
  localeCompare a b ≤ 0

/-- A string all of whose characters are uppercase ASCII letters, the shape
of the ISO currency codes the system is configured with. -/
def UpperStr (s : String) : Prop :=
  ∀ c ∈ s.toList, 65 ≤ c.toNat ∧ c.toNat ≤ 90

instance : DecidablePred UpperStr := fun s =>
  List.decidableBAll _ s.toList

/-- A JavaScript value stored in the `rates` record: a number (exact
rational in the model), `NaN`, `null` or `undefined`. -/
inductive JsRate where
  | num (q : ℚ)
  | nan
  | null
  | undef
deriving DecidableEq

/-- JavaScript truthiness test for a rate value: `0`, `NaN`, `null` and
`undefined` are falsy, every other number is truthy. -/
def jsFalsy : JsRate → Bool
  | .num q => q = 0
  | .nan => true
  | .null => true
  | .undef => true

/-- The decimal digit character for `n % 10`. -/
def digitChar (n : Nat) : Char :=
  Char.ofNat (48 + n % 10)

/-- Decimal digits of `n`, most significant first; `fuel` bounds the digit
count (`fuel = n` always suffices since `n / 10 < n` for `n ≥ 10`). -/
def natDigitsGo (fuel : Nat) (n : Nat) : List Char :=
  match fuel with
  | 0 => [digitChar n]
  | fuel' + 1 =>
    if n < 10 then [digitChar n] else natDigitsGo fuel' (n / 10) ++ [digitChar (n % 10)]

/-- Decimal digits of a natural number, most significant first. -/
def natDigits (n : Nat) : List Char :=
  natDigitsGo n n

/-- Decimal rendering of an integer. -/
def intChars (i : Int) : List Char :=
  if i < 0 then '-' :: natDigits i.natAbs else natDigits i.natAbs

/-- Decimal rendering of the modelled JavaScript number: integers render as
their digit string; non-integral rationals render as numerator, a slash and
denominator (a model of the host's decimal expansion — no claim evaluates
it on a non-integer, and every character it emits is a digit, a minus sign
or a slash). -/
def ratChars (q : ℚ) : List Char :=
  if q.den = 1 then intChars q.num else intChars q.num ++ '/' :: natDigits q.den

/-- Characters of JavaScript string coercion of a rate value (`String(v)`). -/
def jsRateChars : JsRate → List Char
  | .num q => ratChars q
  | .nan => ['N', 'a', 'N']
  | .null => ['n', 'u', 'l', 'l']
  | .undef => ['u', 'n', 'd', 'e', 'f', 'i', 'n', 'e', 'd']

/-- The text after the comma in a produced line: the template fragment
`${rate || ''}` of `dataToLines` — a falsy rate renders as the empty
string, a truthy rate via string coercion. -/
def rateField (r : JsRate) : String :=
  if jsFalsy r then "" else String.mk (jsRateChars r)

/-- A rate snapshot as consumed by `dataToLines`: the calendar date and the
`rates` record, kept as its ordered list of key/value entries (JavaScript
object iteration order). -/
structure RateData where
  date : String
  rates : List (String × JsRate)
deriving DecidableEq

/-- One produced line: the template `${data.date},${rate || ''}`. -/
def lineFor (date : String) (r : JsRate) : String :=
  date ++ "," ++ rateField r

/-- `dataToLines(data, { quotes })` from `src/utils.js`: keep the entries of
`data.rates` whose key is in `quotes`, sort them with the comparator
`prevQuote.localeCompare(nextQuote)` (a stable sort, modelled by insertion
sort, which is stable like `Array.prototype.sort`), and map each entry to
the pair of its key and the formatted line. -/
def dataToLines (data : RateData) (quotes : List String) : List (String × String) :=
  ((data.rates.filter (fun p => quotes.contains p.1)).insertionSort
      (fun p q => byLocale p.1 q.1 = true)).map
    (fun p => (p.1, lineFor data.date p.2))

/-- The options record accepted by the `HttpClient` constructor; each field
may be absent (`undefined`). -/
structure HttpOptions where
  retries : Option Nat := none
  timeout : Option Nat := none
  backoff : Option Nat := none
deriving DecidableEq

/-- JavaScript `x || d` applied to an optional non-negative number: both an
absent value and `0` are falsy and select the default. -/
def jsOrNat : Option Nat → Nat → Nat
  | none, d => d
  | some x, d => if x = 0 then d else x

/-- The private fields of a constructed `HttpClient` instance. -/
structure HttpClientState where
  retries : Nat
  timeout : Nat
  backoff : Nat
deriving DecidableEq

/-- The `HttpClient` constructor: `this.#retries = options.retries || 0`,
`this.#timeout = options.timeout || 10_000`,
`this.#backoff = options.backoff || 3_000`. -/
def HttpClient.construct (o : HttpOptions) : HttpClientState :=
  { retries := jsOrNat o.retries 0
    timeout := jsOrNat o.timeout 10000
    backoff := jsOrNat o.backoff 3000 }

/-- One `console.warn` retry notice of `HttpClient.get`, carrying the data
interpolated into `Attempt ${attempt}/${retries} failed for "${url}",
retrying...`. -/
structure RetryNotice where
  attempt : Nat
  retries : Nat
  url : String
deriving DecidableEq

/-- Observable trace of one `HttpClient.get` call: the value returned or
error thrown, the number of fetch attempts performed, the retry notices
emitted in order, and the backoff pauses taken in order. -/
structure GetTrace (ε α : Type) where
  result : Except ε α
  attemptsMade : Nat
  notices : List RetryNotice
  waits : List Nat

/-- The retry loop of `HttpClient.get` at iteration `i`, with `left`
iterations still allowed after the current one (the loop guard `i < retries`
holds exactly when `left > 0`, since the loop maintains
`left = retries - i`).  `attempts j` is the outcome of the `j`-th
underlying fetch-and-parse attempt (an external effect, supplied as an
oracle).  On failure with iterations left, the loop emits a notice numbered
`i + 1`, pauses for `backoff` and continues; on failure of the last
iteration it rethrows the caught error unchanged. -/
def getLoop {ε α : Type} (url : String) (retries backoff : Nat)
    (attempts : Nat → Except ε α) (left i : Nat) : GetTrace ε α :=
  match attempts i with
  | .ok v => ⟨.ok v, 1, [], []⟩
  | .error e =>
    match left with
    | 0 => ⟨.error e, 1, [], []⟩
    | left' + 1 =>
      let rest := getLoop url retries backoff attempts left' (i + 1)
      ⟨rest.result, rest.attemptsMade + 1,
        ⟨i + 1, retries, url⟩ :: rest.notices, backoff :: rest.waits⟩

/-- `HttpClient.get`: run the retry loop from iteration `0` with the
instance's configured retries and backoff. -/
def HttpClient.get {ε α : Type} (c : HttpClientState) (url : String)
    (attempts : Nat → Except ε α) : GetTrace ε α :=
  getLoop url c.retries c.backoff attempts c.retries 0

/-- Status of one worker of a `Concurrency.run` call: about to test the
claim loop (`idle`), awaiting the task at a claimed index (`running`),
returned normally after seeing the cursor exhausted (`done`), or terminated
by a task rejection at a claimed index (`crashed`). -/
inductive WStatus (ε : Type) where
  | idle
  | running (idx : Nat)
  | done
  | crashed (idx : Nat) (e : ε)
deriving DecidableEq

/-- State of one `Concurrency.run` call: the shared claim cursor
`currentIndex`, the `results` array, the worker pool, the ghost list of
indices claimed so far (in claim order) and the rejection adopted by
`Promise.all`, i.e. the first worker rejection if any. -/
structure CState (α ε : Type) where
  cursor : Nat
  results : List (Option α)
  workers : List (WStatus ε)
  claimed : List Nat
  failed : Option ε
deriving DecidableEq

/-- A scheduling decision of the event loop: let worker `w` run its
synchronous claim/exit section, or deliver the completion of the task
worker `w` is awaiting. -/
inductive CAction where
  | poll (w : Nat)
  | complete (w : Nat)
deriving DecidableEq

/-- One interleaving step of `Concurrency.run`.  `tasks` gives each task's
eventual outcome.  A `poll` of an idle worker runs the atomic
`while (currentIndex < length) { const index = currentIndex++; ... }`
section: it either claims the next index or returns; a `complete` of a
running worker delivers its awaited task outcome: a fulfilment stores the
value at the claimed index and the worker loops, a rejection terminates the
worker and is adopted by `Promise.all` unless an earlier rejection was. -/
def applyAct {α ε : Type} (tasks : List (Except ε α)) :
    CAction → CState α ε → Option (CState α ε)
  | .poll w, s =>
    match s.workers[w]? with
    | some .idle =>
      if s.cursor < tasks.length then
        some { cursor := s.cursor + 1
               results := s.results
               workers := s.workers.set w (.running s.cursor)
               claimed := s.claimed ++ [s.cursor]
               failed := s.failed }
      else
        some { s with workers := s.workers.set w .done }
    | _ => none
  | .complete w, s =>
    match s.workers[w]? with
    | some (.running i) =>
      match tasks[i]? with
      | some (.ok v) =>
        some { s with results := s.results.set i (some v),
                      workers := s.workers.set w .idle }
      | some (.error e) =>
        some { s with workers := s.workers.set w (.crashed i e),
                      failed := some (s.failed.getD e) }
      | none => none
    | _ => none

/-- The step relation of the scheduler: some event-loop decision applies. -/
def CStep {α ε : Type} (tasks : List (Except ε α)) (s s' : CState α ε) : Prop :=
  ∃ a, applyAct tasks a s = some s'

/-- The state at the start of `Concurrency.run` with batch size `K`:
cursor zero, empty results array of the right length,
`Math.min(batchSize, promises.length)` idle workers, nothing claimed, no
rejection. -/
def initState {α ε : Type} (tasks : List (Except ε α)) (K : Nat) : CState α ε :=
  ⟨0, List.replicate tasks.length none,
    List.replicate (min K tasks.length) .idle, [], none⟩

/-- A state the run can be in after finitely many interleaving steps. -/
def Reachable {α ε : Type} (tasks : List (Except ε α)) (K : Nat)
    (s : CState α ε) : Prop :=
  Relation.ReflTransGen (CStep tasks) (initState tasks K) s

/-- All workers have terminated, normally or by rejection: the point where
every promise passed to `Promise.all` has settled. -/
def IsFinal {α ε : Type} (s : CState α ε) : Prop :=
  ∀ st ∈ s.workers, st = .done ∨ ∃ i e, st = .crashed i e

/-- Whether a worker currently has a task in flight. -/
def WStatus.isRunning {ε : Type} : WStatus ε → Bool
  | .running _ => true
  | _ => false

/-- Number of tasks simultaneously in flight in a state. -/
def numInFlight {α ε : Type} (s : CState α ε) : Nat :=
  (s.workers.filter WStatus.isRunning).length

/-- The inductive invariant of the scheduler's step relation, relating a
run state to the task list and batch size it was started with. -/
structure CInv {α ε : Type} (tasks : List (Except ε α)) (K : Nat)
    (s : CState α ε) : Prop where
  res_len : s.results.length = tasks.length
  w_len : s.workers.length = min K tasks.length
  cursor_le : s.cursor ≤ tasks.length
  claimed_eq : s.claimed = List.range s.cursor
  running_lt : ∀ (w i : Nat), s.workers[w]? = some (WStatus.running i) → i < s.cursor
  running_inj : ∀ (w1 w2 i : Nat), s.workers[w1]? = some (WStatus.running i) →
    s.workers[w2]? = some (WStatus.running i) → w1 = w2
  crashed_spec : ∀ (w i : Nat) (e : ε), s.workers[w]? = some (WStatus.crashed i e) →
    tasks[i]? = some (Except.error e) ∧ i < s.cursor
  results_spec : ∀ (i : Nat) (v : α), s.results[i]? = some (some v) →
    tasks[i]? = some (Except.ok v)
  coverage : ∀ (i : Nat), i < s.cursor →
    (∃ w : Nat, s.workers[w]? = some (WStatus.running i)) ∨
    (∃ v, s.results[i]? = some (some v)) ∨
    (∃ (w : Nat) (e : ε), s.workers[w]? = some (WStatus.crashed i e))
  failed_none : s.failed = none →
    ∀ (w i : Nat) (e : ε), ¬ s.workers[w]? = some (WStatus.crashed i e)
  failed_spec : ∀ e, s.failed = some e →
    ∃ i : Nat, tasks[i]? = some (Except.error e)
  done_cursor : ∀ w : Nat, s.workers[w]? = some WStatus.done → s.cursor = tasks.length

/-- The task-building loop of `Fetcher.run`: for each transformed line, in
order, resolve `const path = options.path(quote)` eagerly; the first
exception thrown by the path callback propagates and no further task is
built.  A built task records the resolved path and the line it will hand to
the sink. -/
def Fetcher.buildTasks {ε : Type} (lines : List (String × String))
    (pathFor : String → Except ε String) : Except ε (List (String × String)) :=
  match lines with
  | [] => .ok []
  | (q, l) :: rest =>
    match pathFor q with
    | .error e => .error e
    | .ok p =>
      match Fetcher.buildTasks rest pathFor with
      | .error e => .error e
      | .ok ts => .ok ((p, l) :: ts)

/-- Where a `Fetcher.run` call gets to after transforming the snapshot:
either the task-building phase threw (so the scheduler never starts and the
sink is never invoked), or the listed sink calls were handed to
`new Concurrency(tasks).run({ batchSize: 4 })`. -/
inductive FetcherPhase (ε : Type) where
  | pathError (e : ε)
  | scheduled (tasks : List (String × String))
deriving DecidableEq

/-- The path the injected path callback resolves for a quote when it does
not throw (the value JavaScript binds to `const path = options.path(quote)`). -/
def pathOf {ε : Type} (pathFor : String → Except ε String) (q : String) : String :=
  match pathFor q with
  | .ok p => p
  | .error _ => ""

/-- Transform the fetched snapshot with the instance's quote list and build
the write tasks, stopping at the first path-callback exception. -/
def Fetcher.prepare {ε : Type} (quotes : List String) (data : RateData)
    (pathFor : String → Except ε String) : FetcherPhase ε :=
  match Fetcher.buildTasks (dataToLines data quotes) pathFor with
  | .error e => .pathError e
  | .ok ts => .scheduled ts

/-- The batch size hardcoded in `Fetcher.run`. -/
def fetcherBatchSize : Nat := 4

/-- Eventual outcomes of the scheduled tasks of a `Fetcher.run` call: task
`i` invokes the injected sink once with the `i`-th resolved path and line. -/
def sinkTasks {ε : Type} (sink : String → String → Except ε Unit)
    (ts : List (String × String)) : List (Except ε Unit) :=
  ts.map (fun t => sink t.1 t.2)

/-- `Fetcher.run` up to the scheduling decision: await
`this.#httpClient.get(url)`; a fetch failure propagates, a fetched snapshot
is transformed and its write tasks are built. -/
def Fetcher.runModel {ε : Type} (c : HttpClientState) (quotes : List String)
    (url : String) (attempts : Nat → Except ε RateData)
    (pathFor : String → Except ε String) : Except ε (FetcherPhase ε) :=
  match (HttpClient.get c url attempts).result with
  | .error e => .error e
  | .ok data => .ok (Fetcher.prepare quotes data pathFor)

/-! ### Properties of the modelled collation -/

theorem lexCmp_eq_iff : ∀ a b : List Nat, lexCmp a b = .eq ↔ a = b
  | [], [] => by simp [lexCmp]
  | [], _ :: _ => by simp [lexCmp]
  | _ :: _, [] => by simp [lexCmp]
  | a :: as, b :: bs => by
    rcases Nat.lt_trichotomy a b with h | h | h
    · simp [lexCmp, h, Nat.ne_of_lt h]
    · subst h
      simp [lexCmp, Nat.lt_irrefl, lexCmp_eq_iff as bs]
    · simp [lexCmp, Nat.lt_asymm h, h, Ne.symm (Nat.ne_of_lt h)]

theorem lexCmp_self (a : List Nat) : lexCmp a a = .eq :=
  (lexCmp_eq_iff a a).2 rfl

theorem lexCmp_swap : ∀ a b : List Nat, (lexCmp a b).swap = lexCmp b a
  | [], [] => by simp [lexCmp, Ordering.swap]
  | [], _ :: _ => by simp [lexCmp, Ordering.swap]
  | _ :: _, [] => by simp [lexCmp, Ordering.swap]
  | a :: as, b :: bs => by
    rcases Nat.lt_trichotomy a b with h | h | h
    · simp [lexCmp, h, Nat.lt_asymm h, Ordering.swap]
    · subst h
      simp [lexCmp, Nat.lt_irrefl, lexCmp_swap as bs]
    · simp [lexCmp, h, Nat.lt_asymm h, Ordering.swap]

theorem lexCmp_le_trans :
    ∀ a b c : List Nat, lexCmp a b ≠ .gt → lexCmp b c ≠ .gt → lexCmp a c ≠ .gt
  | [], _, c, _, _ => by cases c <;> simp [lexCmp]
  | _ :: _, [], _, h1, _ => by simp [lexCmp] at h1
  | _ :: _, _ :: _, [], _, h2 => by simp [lexCmp] at h2
  | a :: as, b :: bs, c :: cs, h1, h2 => by
    have hab : a < b ∨ (a = b ∧ lexCmp as bs ≠ .gt) := by
      rcases Nat.lt_trichotomy a b with h | h | h
      · exact .inl h
      · subst h
        exact .inr ⟨rfl, by simpa [lexCmp, Nat.lt_irrefl] using h1⟩
      · exact absurd (by simp [lexCmp, Nat.lt_asymm h, h]) h1
    have hbc : b < c ∨ (b = c ∧ lexCmp bs cs ≠ .gt) := by
      rcases Nat.lt_trichotomy b c with h | h | h
      · exact .inl h
      · subst h
        exact .inr ⟨rfl, by simpa [lexCmp, Nat.lt_irrefl] using h2⟩
      · exact absurd (by simp [lexCmp, Nat.lt_asymm h, h]) h2
    rcases hab with h | ⟨rfl, hrec1⟩
    · rcases hbc with h' | ⟨rfl, _⟩
      · have := Nat.lt_trans h h'
        simp [lexCmp, this]
      · simp [lexCmp, h]
    · rcases hbc with h' | ⟨rfl, hrec2⟩
      · simp [lexCmp, h']
      · simpa [lexCmp, Nat.lt_irrefl] using lexCmp_le_trans as bs cs hrec1 hrec2

theorem byLocale_iff (a b : String) : byLocale a b = true ↔ localeCmp a b ≠ .gt := by
  unfold byLocale localeCompare
  cases h : localeCmp a b <;> simp

theorem byLocale_trans {a b c : String} (h1 : byLocale a b) (h2 : byLocale b c) :
    byLocale a c := by
  rw [byLocale_iff] at h1 h2 ⊢
  exact lexCmp_le_trans _ _ _ h1 h2

theorem byLocale_total (a b : String) : byLocale a b || byLocale b a := by
  rcases h : localeCmp a b with _ | _ | _
  · have : byLocale a b := (byLocale_iff a b).2 (by simp [h])
    simp [this]
  · have : byLocale a b := (byLocale_iff a b).2 (by simp [h])
    simp [this]
  · have hba : localeCmp b a = .lt := by
      have := lexCmp_swap (collKey a) (collKey b)
      unfold localeCmp at h ⊢
      rw [h] at this
      simpa [Ordering.swap] using this.symm
    have : byLocale b a := (byLocale_iff b a).2 (by simp [hba])
    simp [this]

theorem lexCmp_append_sep :
    ∀ xs ys us vs : List Nat, (∀ n ∈ xs, 1 ≤ n) → (∀ n ∈ ys, 1 ≤ n) →
      lexCmp (xs ++ 0 :: us) (ys ++ 0 :: vs) = (lexCmp xs ys).then (lexCmp us vs)
  | [], [], us, vs, _, _ => by simp [lexCmp, Ordering.then]
  | [], y :: ys, us, vs, _, hy => by
    have : 0 < y := hy y (by simp)
    simp [lexCmp, this, Ordering.then]
  | x :: xs, [], us, vs, hx, _ => by
    have h0 : 0 < x := hx x (by simp)
    simp [lexCmp, Nat.not_lt.2 (Nat.le_of_lt h0), h0, Ordering.then]
  | x :: xs, y :: ys, us, vs, hx, hy => by
    rcases Nat.lt_trichotomy x y with h | h | h
    · simp [lexCmp, h, Ordering.then]
    · subst h
      have := lexCmp_append_sep xs ys us vs (fun n hn => hx n (by simp [hn]))
        (fun n hn => hy n (by simp [hn]))
      simpa [lexCmp, Nat.lt_irrefl] using this
    · simp [lexCmp, h, Nat.lt_asymm h, Ordering.then]

theorem lexCmp_map_shift (k : Nat) :
    ∀ xs ys : List Nat, lexCmp (xs.map (· + k)) (ys.map (· + k)) = lexCmp xs ys
  | [], [] => by simp [lexCmp]
  | [], _ :: _ => by simp [lexCmp]
  | _ :: _, [] => by simp [lexCmp]
  | x :: xs, y :: ys => by
    rcases Nat.lt_trichotomy x y with h | h | h
    · simp [lexCmp, h, Nat.add_lt_add_right h k]
    · subst h
      simp [lexCmp, Nat.lt_irrefl, lexCmp_map_shift k xs ys]
    · simp [lexCmp, h, Nat.lt_asymm h, Nat.add_lt_add_right h k,
        Nat.lt_asymm (Nat.add_lt_add_right h k)]

theorem collKey_upper {s : String} (h : UpperStr s) :
    collKey s = s.toList.map (fun c => c.toNat + 32) ++ 0 :: s.toList.map (fun _ => 1) := by
  unfold collKey
  congr 1
  · exact List.map_congr_left fun c hc => by
      have := h c hc
      simp [primaryOf, this.1, this.2]
  · congr 1
    exact List.map_congr_left fun c hc => by
      have := h c hc
      simp [tertiaryOf, this.1, this.2]

theorem charToNat_injective : Function.Injective Char.toNat := by
  intro a b h
  have := congrArg Char.ofNat h
  simpa [Char.ofNat_toNat] using this

theorem localeCmp_eq_codePointCmp {a b : String} (ha : UpperStr a) (hb : UpperStr b) :
    localeCmp a b = codePointCmp a b := by
  unfold localeCmp codePointCmp
  rw [collKey_upper ha, collKey_upper hb]
  rw [lexCmp_append_sep _ _ _ _
    (by
      intro n hn
      rcases List.mem_map.1 hn with ⟨c, hc, rfl⟩
      omega)
    (by
      intro n hn
      rcases List.mem_map.1 hn with ⟨c, hc, rfl⟩
      omega)]
  have hma : a.toList.map (fun c => c.toNat + 32) = (a.toList.map Char.toNat).map (· + 32) := by
    rw [List.map_map]
    rfl
  have hmb : b.toList.map (fun c => c.toNat + 32) = (b.toList.map Char.toNat).map (· + 32) := by
    rw [List.map_map]
    rfl
  rw [hma, hmb, lexCmp_map_shift 32]
  cases h : lexCmp (a.toList.map Char.toNat) (b.toList.map Char.toNat) with
  | lt => simp [Ordering.then]
  | gt => simp [Ordering.then]
  | eq =>
    have hl : a = b := by
      have := (lexCmp_eq_iff _ _).1 h
      exact String.ext (List.map_injective_iff.2 charToNat_injective this)
    subst hl
    simp [Ordering.then, lexCmp_self]

theorem localeCmp_eq_of_upper {a b : String} (ha : UpperStr a) (hb : UpperStr b)
    (h : localeCmp a b = .eq) : a = b := by
  rw [localeCmp_eq_codePointCmp ha hb] at h
  have := (lexCmp_eq_iff _ _).1 h
  exact String.ext (List.map_injective_iff.2 charToNat_injective this)

theorem codePointCmp_asymm {a b : String} (h : codePointCmp a b = .lt) :
    codePointCmp b a = .lt → False := by
  intro h'
  have := lexCmp_swap (a.toList.map Char.toNat) (b.toList.map Char.toNat)
  unfold codePointCmp at h h'
  rw [h] at this
  rw [h'] at this
  simp [Ordering.swap] at this

/-! ### Properties of dataToLines -/

theorem codePointCmp_eq_iff (a b : String) : codePointCmp a b = .eq ↔ a = b := by
  unfold codePointCmp
  rw [lexCmp_eq_iff]
  constructor
  · intro h
    exact String.ext (List.map_injective_iff.2 charToNat_injective h)
  · intro h
    rw [h]

theorem keptSorted_pairwise (data : RateData) (quotes : List String)
    (hup : ∀ p ∈ data.rates, UpperStr p.1)
    (hnd : (data.rates.map Prod.fst).Nodup) :
    ((data.rates.filter (fun p => quotes.contains p.1)).insertionSort
        (fun p q => byLocale p.1 q.1 = true)).Pairwise
      (fun p q => codePointCmp p.1 q.1 = .lt) := by
  haveI : IsTrans (String × JsRate) (fun p q => byLocale p.1 q.1 = true) :=
    ⟨fun _ _ _ hab hbc => byLocale_trans hab hbc⟩
  haveI : IsTotal (String × JsRate) (fun p q => byLocale p.1 q.1 = true) :=
    ⟨fun a b => by
      have h := byLocale_total a.1 b.1
      rw [Bool.or_eq_true] at h
      exact h⟩
  have hsorted : ((data.rates.filter (fun p => quotes.contains p.1)).insertionSort
      (fun p q => byLocale p.1 q.1 = true)).Pairwise (fun p q => byLocale p.1 q.1 = true) :=
    List.sorted_insertionSort _ _
  have hmem : ∀ p ∈ (data.rates.filter (fun p => quotes.contains p.1)).insertionSort
      (fun p q => byLocale p.1 q.1 = true), UpperStr p.1 := by
    intro p hp
    rw [List.mem_insertionSort] at hp
    exact hup p (List.mem_filter.1 hp).1
  have hndM : (((data.rates.filter (fun p => quotes.contains p.1)).insertionSort
      (fun p q => byLocale p.1 q.1 = true)).map Prod.fst).Nodup := by
    have h1 : (data.rates.filter (fun p => quotes.contains p.1)).Sublist data.rates :=
      List.filter_sublist _
    have h3 : ((data.rates.filter (fun p => quotes.contains p.1)).map Prod.fst).Nodup :=
      hnd.sublist (h1.map _)
    exact (((List.perm_insertionSort _ _).map Prod.fst).nodup_iff).2 h3
  have hne : ((data.rates.filter (fun p => quotes.contains p.1)).insertionSort
      (fun p q => byLocale p.1 q.1 = true)).Pairwise (fun p q => p.1 ≠ q.1) :=
    List.pairwise_map.1 hndM
  refine List.Pairwise.imp_of_mem ?_ (hsorted.and hne)
  intro a b ha hb hab
  have h1 : localeCmp a.1 b.1 ≠ .gt := (byLocale_iff _ _).1 hab.1
  rw [localeCmp_eq_codePointCmp (hmem a ha) (hmem b hb)] at h1
  rcases hcp : codePointCmp a.1 b.1 with _ | _ | _
  · rfl
  · exact absurd ((codePointCmp_eq_iff _ _).1 hcp) hab.2
  · exact absurd hcp h1

theorem keptSorted_eq_of_perm (d1 d2 : RateData) (quotes : List String)
    (hperm : List.Perm d1.rates d2.rates)
    (hup : ∀ p ∈ d2.rates, UpperStr p.1)
    (hnd : (d2.rates.map Prod.fst).Nodup) :
    (d1.rates.filter (fun p => quotes.contains p.1)).insertionSort
        (fun p q => byLocale p.1 q.1 = true) =
      (d2.rates.filter (fun p => quotes.contains p.1)).insertionSort
        (fun p q => byLocale p.1 q.1 = true) := by
  have hup1 : ∀ p ∈ d1.rates, UpperStr p.1 := fun p hp => hup p (hperm.subset hp)
  have hnd1 : (d1.rates.map Prod.fst).Nodup := ((hperm.map Prod.fst).nodup_iff).2 hnd
  have hs1 := keptSorted_pairwise d1 quotes hup1 hnd1
  have hs2 := keptSorted_pairwise d2 quotes hup hnd
  have hp : List.Perm
      ((d1.rates.filter (fun p => quotes.contains p.1)).insertionSort
        (fun p q => byLocale p.1 q.1 = true))
      ((d2.rates.filter (fun p => quotes.contains p.1)).insertionSort
        (fun p q => byLocale p.1 q.1 = true)) :=
    (List.perm_insertionSort _ _).trans
      ((hperm.filter _).trans (List.perm_insertionSort _ _).symm)
  haveI : IsAntisymm (String × JsRate) (fun p q => codePointCmp p.1 q.1 = .lt) :=
    ⟨fun _ _ h1 h2 => (codePointCmp_asymm h1 h2).elim⟩
  exact List.eq_of_perm_of_sorted hp hs1 hs2

/-- The characters emitted by the digit printer are decimal digits. -/
theorem toNat_digitChar (n : Nat) : (digitChar n).toNat = 48 + n % 10 := by
  have hv : (48 + n % 10).isValidChar := by
    have : n % 10 < 10 := Nat.mod_lt _ (by omega)
    exact Or.inl (by omega)
  unfold digitChar Char.ofNat
  rw [dif_pos hv]
  rfl

theorem natDigitsGo_chars :
    ∀ fuel n : Nat, ∀ c ∈ natDigitsGo fuel n, 48 ≤ c.toNat ∧ c.toNat ≤ 57
  | 0, n, c, hc => by
    simp only [natDigitsGo, List.mem_singleton] at hc
    subst hc
    rw [toNat_digitChar]
    omega
  | fuel' + 1, n, c, hc => by
    simp only [natDigitsGo] at hc
    split at hc
    · simp only [List.mem_singleton] at hc
      subst hc
      rw [toNat_digitChar]
      omega
    · rcases List.mem_append.1 hc with h | h
      · exact natDigitsGo_chars fuel' (n / 10) c h
      · simp only [List.mem_singleton] at h
        subst h
        rw [toNat_digitChar]
        omega

theorem ratChars_chars (q : ℚ) : ∀ c ∈ ratChars q, 45 ≤ c.toNat ∧ c.toNat ≤ 57 := by
  intro c hc
  have hint : ∀ i : Int, ∀ c ∈ intChars i, 45 ≤ c.toNat ∧ c.toNat ≤ 57 := by
    intro i c hc
    unfold intChars at hc
    split at hc
    · rcases List.mem_cons.1 hc with h | h
      · subst h
        constructor <;> decide
      · have := natDigitsGo_chars i.natAbs i.natAbs c h
        omega
    · have := natDigitsGo_chars i.natAbs i.natAbs c hc
      omega
  unfold ratChars at hc
  split at hc
  · exact hint q.num c hc
  · rcases List.mem_append.1 hc with h | h
    · exact hint q.num c h
    · rcases List.mem_cons.1 h with h' | h'
      · subst h'
        constructor <;> decide
      · have := natDigitsGo_chars q.den q.den c h'
        omega

theorem mk_ratChars_ne {l : List Char} (q : ℚ) (c : Char) (hmem : c ∈ l)
    (hbig : 57 < c.toNat) : String.mk (ratChars q) ≠ String.mk l := by
  intro h
  have hl : ratChars q = l := congrArg String.data h
  subst hl
  have := ratChars_chars q c hmem
  omega

theorem rateField_not_keyword (r : JsRate) :
    rateField r ≠ "null" ∧ rateField r ≠ "undefined" ∧ rateField r ≠ "NaN" := by
  unfold rateField
  split
  · refine ⟨?_, ?_, ?_⟩ <;> decide
  · rename_i hfalsy
    cases r with
    | num q =>
      refine ⟨?_, ?_, ?_⟩
      · exact mk_ratChars_ne q 'n' (by decide) (by decide)
      · exact mk_ratChars_ne q 'u' (by decide) (by decide)
      · exact mk_ratChars_ne q 'N' (by decide) (by decide)
    | nan => simp [jsFalsy] at hfalsy
    | null => simp [jsFalsy] at hfalsy
    | undef => simp [jsFalsy] at hfalsy

/-! ### Claims C3 and C4: the rate transformer -/

/-- C3, amended: for every snapshot whose rate keys are uppercase-ASCII
currency codes without duplicates, `dataToLines` returns exactly the
entries whose code is in the allow-list; the output is sorted strictly
ascending by the comparator actually used, `localeCompare`, which on such
codes coincides with the locale-independent code-point comparison; and the
output does not depend on the iteration order of the input rates map. -/
theorem dataToLines_upper_sorted_allowlist_perm_invariant
    (data data' : RateData) (quotes : List String)
    (hup : ∀ p ∈ data.rates, UpperStr p.1)
    (hnd : (data.rates.map Prod.fst).Nodup)
    (hdate : data'.date = data.date)
    (hperm : List.Perm data'.rates data.rates) :
    dataToLines data' quotes = dataToLines data quotes ∧
    (dataToLines data quotes).Pairwise (fun p q => codePointCmp p.1 q.1 = .lt) ∧
    List.Perm (dataToLines data quotes)
      ((data.rates.filter (fun p => quotes.contains p.1)).map
        (fun p => (p.1, lineFor data.date p.2))) := by
  refine ⟨?_, ?_, ?_⟩
  · unfold dataToLines
    rw [keptSorted_eq_of_perm data' data quotes hperm hup hnd, hdate]
  · exact List.pairwise_map.2 (keptSorted_pairwise data quotes hup hnd)
  · exact (List.perm_insertionSort _ _).map _

/-- C3 witness: a concrete permuted snapshot yields an identical output. -/
theorem dataToLines_upper_sorted_allowlist_perm_invariant_witness :
    dataToLines ⟨"2024-01-01", [("EUR", JsRate.num 2), ("USD", JsRate.num 1)]⟩
        ["EUR", "USD"] =
      dataToLines ⟨"2024-01-01", [("USD", JsRate.num 1), ("EUR", JsRate.num 2)]⟩
        ["EUR", "USD"] :=
  (dataToLines_upper_sorted_allowlist_perm_invariant
    ⟨"2024-01-01", [("USD", JsRate.num 1), ("EUR", JsRate.num 2)]⟩
    ⟨"2024-01-01", [("EUR", JsRate.num 2), ("USD", JsRate.num 1)]⟩
    ["EUR", "USD"] (by decide) (by decide) rfl (by decide)).1

/-- C3 counterexample: the comparator the code passes to the sort is
`localeCompare`, a locale collation, not a byte/code-point comparison: with
allow-listed keys "a" and "B" the output orders "a" before "B", although
"B" precedes "a" in code-point order, so the output is not sorted under the
code-point comparison the claim states. -/
theorem dataToLines_not_codepoint_sorted_counterexample :
    dataToLines ⟨"d", [("B", JsRate.num 2), ("a", JsRate.num 1)]⟩ ["a", "B"] =
      [("a", "d,1"), ("B", "d,2")] ∧
    codePointCmp "B" "a" = .lt ∧
    ¬ (dataToLines ⟨"d", [("B", JsRate.num 2), ("a", JsRate.num 1)]⟩
        ["a", "B"]).Pairwise (fun p q => codePointCmp p.1 q.1 ≠ .gt) := by
  refine ⟨by decide, by decide, ?_⟩
  intro hpw
  rw [show dataToLines ⟨"d", [("B", JsRate.num 2), ("a", JsRate.num 1)]⟩ ["a", "B"] =
    [("a", "d,1"), ("B", "d,2")] from by decide] at hpw
  have h := (List.pairwise_cons.1 hpw).1 ("B", "d,2") (by decide)
  exact h (by decide)

/-- C4, amended: every line produced by `dataToLines` is
`date ++ "," ++ rateField rate` for an allow-listed entry of the input.
The rate field renders as the empty string exactly for the falsy rates —
missing (`null`/`undefined`), `NaN`, and also the present number `0` — and
otherwise renders the number verbatim; it is never the text "null",
"undefined" or "NaN". -/
theorem dataToLines_rate_rendering (data : RateData) (quotes : List String) :
    (∀ p ∈ dataToLines data quotes, ∃ c r, (c, r) ∈ data.rates ∧
        quotes.contains c ∧ p = (c, data.date ++ "," ++ rateField r)) ∧
    (∀ r, jsFalsy r = true → rateField r = "") ∧
    (∀ r, jsFalsy r = false → rateField r = String.mk (jsRateChars r)) ∧
    (∀ r, rateField r ≠ "null" ∧ rateField r ≠ "undefined" ∧ rateField r ≠ "NaN") := by
  refine ⟨?_, ?_, ?_, fun r => rateField_not_keyword r⟩
  · intro p hp
    unfold dataToLines at hp
    rcases List.mem_map.1 hp with ⟨q, hq, rfl⟩
    rw [List.mem_insertionSort] at hq
    have hf := List.mem_filter.1 hq
    exact ⟨q.1, q.2, by simpa using hf.1, hf.2, rfl⟩
  · intro r h
    unfold rateField
    simp [h]
  · intro r h
    unfold rateField
    simp [h]

/-- C4 counterexample: a present numeric rate of `0` is falsy in the
template fragment `${rate || ''}`, so the code renders it as an empty field
rather than verbatim as "0". -/
theorem dataToLines_zero_rate_renders_empty :
    dataToLines ⟨"2024-01-01", [("USD", JsRate.num 0)]⟩ ["USD"] =
      [("USD", "2024-01-01,")] ∧
    ("2024-01-01," : String) ≠ "2024-01-01,0" :=
  ⟨by decide, by decide⟩

/-! ### Properties of the HTTP client -/

theorem getLoop_ok {ε α : Type} {url : String} {retries backoff : Nat}
    {attempts : Nat → Except ε α} {left i : Nat} {v : α}
    (h : attempts i = .ok v) :
    getLoop url retries backoff attempts left i = ⟨.ok v, 1, [], []⟩ := by
  rw [getLoop, h]

theorem getLoop_error_zero {ε α : Type} {url : String} {retries backoff : Nat}
    {attempts : Nat → Except ε α} {i : Nat} {e : ε}
    (h : attempts i = .error e) :
    getLoop url retries backoff attempts 0 i = ⟨.error e, 1, [], []⟩ := by
  rw [getLoop, h]

theorem getLoop_error_succ {ε α : Type} {url : String} {retries backoff : Nat}
    {attempts : Nat → Except ε α} {left' i : Nat} {e : ε}
    (h : attempts i = .error e) :
    getLoop url retries backoff attempts (left' + 1) i =
      ⟨(getLoop url retries backoff attempts left' (i + 1)).result,
        (getLoop url retries backoff attempts left' (i + 1)).attemptsMade + 1,
        ⟨i + 1, retries, url⟩ :: (getLoop url retries backoff attempts left' (i + 1)).notices,
        backoff :: (getLoop url retries backoff attempts left' (i + 1)).waits⟩ := by
  rw [getLoop, h]

theorem getLoop_all_fail {ε α : Type} (url : String) (retries backoff : Nat)
    (attempts : Nat → Except ε α) (errs : Nat → ε) :
    ∀ left i, (∀ j, i ≤ j → j ≤ i + left → attempts j = .error (errs j)) →
      getLoop url retries backoff attempts left i =
        ⟨.error (errs (i + left)), left + 1,
          (List.range' (i + 1) left).map (fun a => ⟨a, retries, url⟩),
          List.replicate left backoff⟩ := by
  intro left
  induction left with
  | zero =>
    intro i hfail
    rw [getLoop_error_zero (hfail i (Nat.le_refl i) (Nat.le_refl i))]
    simp
  | succ left' ih =>
    intro i hfail
    have ihv := ih (i + 1) (fun j h1 h2 => hfail j (by omega) (by omega))
    have harg : i + 1 + left' = i + (left' + 1) := by omega
    rw [harg] at ihv
    rw [getLoop_error_succ (hfail i (Nat.le_refl i) (by omega)), ihv]
    simp only [List.range'_succ, List.replicate_succ, List.map_cons]

theorem getLoop_waits {ε α : Type} (url : String) (retries backoff : Nat)
    (attempts : Nat → Except ε α) :
    ∀ left i, ∀ w ∈ (getLoop url retries backoff attempts left i).waits, w = backoff := by
  intro left
  induction left with
  | zero =>
    intro i w hw
    cases h : attempts i with
    | ok v =>
      rw [getLoop_ok h] at hw
      simp at hw
    | error e =>
      rw [getLoop_error_zero h] at hw
      simp at hw
  | succ left' ih =>
    intro i w hw
    cases h : attempts i with
    | ok v =>
      rw [getLoop_ok h] at hw
      simp at hw
    | error e =>
      rw [getLoop_error_succ h] at hw
      rcases List.mem_cons.1 hw with rfl | hw2
      · rfl
      · exact ih (i + 1) w hw2

/-! ### Claims C2, C7, C8: the HTTP client -/

/-- C2 (confirmed): with `retries = r`, if every underlying fetch attempt
fails, `HttpClient.get` performs exactly `r + 1` attempts and emits exactly
`r` retry notices — one per failed-but-retried attempt, numbered
`1, …, r`, and none for the final failure — before raising the final
failure. -/
theorem httpGet_all_fail_attempts_notices {ε α : Type} (c : HttpClientState)
    (url : String) (attempts : Nat → Except ε α) (errs : Nat → ε)
    (hfail : ∀ j, attempts j = .error (errs j)) :
    (HttpClient.get c url attempts).attemptsMade = c.retries + 1 ∧
    (HttpClient.get c url attempts).notices.length = c.retries ∧
    (HttpClient.get c url attempts).notices =
      (List.range' 1 c.retries).map (fun a => ⟨a, c.retries, url⟩) ∧
    (HttpClient.get c url attempts).result = .error (errs c.retries) := by
  have h := getLoop_all_fail url c.retries c.backoff attempts errs c.retries 0
    (fun j _ _ => hfail j)
  unfold HttpClient.get
  rw [h]
  refine ⟨rfl, by simp, by norm_num, by simp⟩

/-- C2 witness: three attempts and two notices for a client with two
retries whose fetch always fails. -/
theorem httpGet_all_fail_attempts_notices_witness :
    (HttpClient.get (HttpClient.construct ⟨some 2, none, none⟩) "u"
        (fun _ => (Except.error "boom" : Except String Unit))).attemptsMade = 3 ∧
    (HttpClient.get (HttpClient.construct ⟨some 2, none, none⟩) "u"
        (fun _ => (Except.error "boom" : Except String Unit))).notices.length = 2 :=
  ⟨(httpGet_all_fail_attempts_notices (HttpClient.construct ⟨some 2, none, none⟩)
      "u" _ (fun _ => "boom") (fun _ => rfl)).1,
    (httpGet_all_fail_attempts_notices (HttpClient.construct ⟨some 2, none, none⟩)
      "u" _ (fun _ => "boom") (fun _ => rfl)).2.1⟩

/-- C8 (confirmed): when every attempt up to the retry budget fails,
`HttpClient.get` raises exactly the last attempt's error value, unchanged —
the result is literally `Except.error` of the error of attempt
`retries` (the `r + 1`-st and final attempt), in the caller's own error
type, so nothing is wrapped and earlier errors are not aggregated. -/
theorem httpGet_propagates_last_error {ε α : Type} (c : HttpClientState)
    (url : String) (attempts : Nat → Except ε α) (errs : Nat → ε)
    (hfail : ∀ j, j ≤ c.retries → attempts j = .error (errs j)) :
    (HttpClient.get c url attempts).result = .error (errs c.retries) := by
  have h := getLoop_all_fail url c.retries c.backoff attempts errs c.retries 0
    (fun j h1 h2 => hfail j (by omega))
  unfold HttpClient.get
  rw [h]
  simp

/-- C8 witness: the error of the final attempt is returned verbatim. -/
theorem httpGet_propagates_last_error_witness :
    (HttpClient.get (HttpClient.construct ⟨some 1, none, none⟩) "v"
        (fun _ => (Except.error "netfail" : Except String Nat))).result =
      .error "netfail" :=
  httpGet_propagates_last_error (HttpClient.construct ⟨some 1, none, none⟩)
    "v" _ (fun _ => "netfail") (fun _ _ => rfl)

/-- C7, amended: the constructor applies JavaScript `||` defaults, so a
configured nonzero timeout and nonzero backoff are used exactly, and any
configured retries value is used exactly; but a configured
`backoff = 0` is falsy and is replaced by the default `3000` — a client
configured with zero backoff pauses `3000`, not `0`, between retries.  The
pause between a failed attempt and the next retry always equals the
instance's single backoff field: a fixed delay, identical between every
retry. -/
theorem httpClient_construct_uses_options_fixed_backoff (o : HttpOptions) :
    HttpClient.construct o =
      ⟨jsOrNat o.retries 0, jsOrNat o.timeout 10000, jsOrNat o.backoff 3000⟩ ∧
    (∀ r, o.retries = some r → (HttpClient.construct o).retries = r) ∧
    (∀ t, o.timeout = some t → t ≠ 0 → (HttpClient.construct o).timeout = t) ∧
    (∀ b, o.backoff = some b → b ≠ 0 → (HttpClient.construct o).backoff = b) ∧
    (o.backoff = some 0 → (HttpClient.construct o).backoff = 3000) ∧
    (∀ (ε α : Type) (url : String) (attempts : Nat → Except ε α),
      ∀ w ∈ (HttpClient.get (HttpClient.construct o) url attempts).waits,
        w = (HttpClient.construct o).backoff) := by
  refine ⟨rfl, ?_, ?_, ?_, ?_, ?_⟩
  · intro r h
    simp only [HttpClient.construct, jsOrNat, h]
    split <;> omega
  · intro t h ht
    simp only [HttpClient.construct, jsOrNat, h]
    split <;> omega
  · intro b h hb
    simp only [HttpClient.construct, jsOrNat, h]
    split <;> omega
  · intro h
    simp [HttpClient.construct, jsOrNat, h]
  · intro ε α url attempts w hw
    exact getLoop_waits url _ _ attempts _ 0 w hw

/-- C7 counterexample: a client constructed with `backoff: 0` does not use
the configured value — the falsy `0` selects the default `3000`, and the
pause between retries is `3000`, not `0`. -/
theorem httpClient_backoff_zero_counterexample :
    (HttpClient.construct ⟨some 3, some 2000, some 0⟩).backoff = 3000 ∧
    (HttpClient.get (HttpClient.construct ⟨some 1, some 1, some 0⟩) "u"
        (fun _ => (Except.error "e" : Except String Unit))).waits = [3000] ∧
    (3000 : Nat) ≠ 0 :=
  ⟨rfl, by decide, by decide⟩

/-! ### Properties of the concurrency scheduler -/

theorem getElem?_some_lt {γ : Type} {l : List γ} {i : Nat} {a : γ}
    (h : l[i]? = some a) : i < l.length := by
  by_contra hn
  rw [List.getElem?_eq_none (Nat.le_of_not_lt hn)] at h
  cases h

theorem replicate_getElem?_eq {γ : Type} {m w : Nat} {a b : γ}
    (h : (List.replicate m a)[w]? = some b) : b = a := by
  rw [List.getElem?_replicate] at h
  split at h
  · exact (Option.some.inj h).symm
  · cases h

theorem cinv_init {α ε : Type} (tasks : List (Except ε α)) (K : Nat) :
    CInv tasks K (initState tasks K) := by
  refine ⟨?_, ?_, ?_, ?_, ?_, ?_, ?_, ?_, ?_, ?_, ?_, ?_⟩
  · exact List.length_replicate _ _
  · exact List.length_replicate _ _
  · exact Nat.zero_le _
  · rfl
  · intro w i h
    exact WStatus.noConfusion (replicate_getElem?_eq h)
  · intro w1 w2 i h1 h2
    exact WStatus.noConfusion (replicate_getElem?_eq h1)
  · intro w i e h
    exact WStatus.noConfusion (replicate_getElem?_eq h)
  · intro i v h
    exact Option.noConfusion (replicate_getElem?_eq h)
  · intro i hi
    exact absurd hi (Nat.not_lt_zero i)
  · intro _ w i e h
    exact WStatus.noConfusion (replicate_getElem?_eq h)
  · intro e h
    exact Option.noConfusion h
  · intro w h
    exact WStatus.noConfusion (replicate_getElem?_eq h)

theorem cinv_step {α ε : Type} {tasks : List (Except ε α)} {K : Nat}
    {s s' : CState α ε} {a : CAction}
    (hstep : applyAct tasks a s = some s') (hinv : CInv tasks K s) :
    CInv tasks K s' := by
  cases a with
  | poll w =>
    simp only [applyAct] at hstep
    split at hstep
    · rename_i hw
      have hwlt : w < s.workers.length := getElem?_some_lt hw
      split at hstep
      · rename_i hc
        injection hstep with hs
        subst hs
        refine ⟨hinv.res_len, ?_, hc, ?_, ?_, ?_, ?_, hinv.results_spec, ?_, ?_,
          hinv.failed_spec, ?_⟩
        · show (s.workers.set w (WStatus.running s.cursor)).length = min K tasks.length
          rw [List.length_set]
          exact hinv.w_len
        · show s.claimed ++ [s.cursor] = List.range (s.cursor + 1)
          rw [hinv.claimed_eq, List.range_succ]
        · intro w' i h
          show i < s.cursor + 1
          by_cases hww : w = w'
          · subst hww
            rw [List.getElem?_set_self hwlt] at h
            have := WStatus.running.inj (Option.some.inj h)
            omega
          · rw [List.getElem?_set_ne hww] at h
            exact Nat.lt_succ_of_lt (hinv.running_lt w' i h)
        · intro w1 w2 i h1 h2
          by_cases h1w : w = w1 <;> by_cases h2w : w = w2
          · omega
          · subst h1w
            rw [List.getElem?_set_self hwlt] at h1
            rw [List.getElem?_set_ne h2w] at h2
            have e1 := WStatus.running.inj (Option.some.inj h1)
            have l2 := hinv.running_lt w2 i h2
            omega
          · subst h2w
            rw [List.getElem?_set_self hwlt] at h2
            rw [List.getElem?_set_ne h1w] at h1
            have e2 := WStatus.running.inj (Option.some.inj h2)
            have l1 := hinv.running_lt w1 i h1
            omega
          · rw [List.getElem?_set_ne h1w] at h1
            rw [List.getElem?_set_ne h2w] at h2
            exact hinv.running_inj w1 w2 i h1 h2
        · intro w' i e h
          by_cases hww : w = w'
          · subst hww
            rw [List.getElem?_set_self hwlt] at h
            exact WStatus.noConfusion (Option.some.inj h)
          · rw [List.getElem?_set_ne hww] at h
            obtain ⟨ht, hlt⟩ := hinv.crashed_spec w' i e h
            exact ⟨ht, Nat.lt_succ_of_lt hlt⟩
        · intro i hi
          by_cases hic : i = s.cursor
          · subst hic
            exact Or.inl ⟨w, by rw [List.getElem?_set_self hwlt]⟩
          · have hi' : i < s.cursor := by
              have : i < s.cursor + 1 := hi
              omega
            rcases hinv.coverage i hi' with ⟨w', hw'⟩ | hres | ⟨w', e, hw'⟩
            · have hne : w ≠ w' := by
                intro hEq
                subst hEq
                exact WStatus.noConfusion (Option.some.inj (hw.symm.trans hw'))
              exact Or.inl ⟨w', by rw [List.getElem?_set_ne hne]; exact hw'⟩
            · exact Or.inr (Or.inl hres)
            · have hne : w ≠ w' := by
                intro hEq
                subst hEq
                exact WStatus.noConfusion (Option.some.inj (hw.symm.trans hw'))
              exact Or.inr (Or.inr ⟨w', e, by rw [List.getElem?_set_ne hne]; exact hw'⟩)
        · intro hf w' i e h
          by_cases hww : w = w'
          · subst hww
            rw [List.getElem?_set_self hwlt] at h
            exact WStatus.noConfusion (Option.some.inj h)
          · rw [List.getElem?_set_ne hww] at h
            exact hinv.failed_none hf w' i e h
        · intro w' h
          by_cases hww : w = w'
          · subst hww
            rw [List.getElem?_set_self hwlt] at h
            exact WStatus.noConfusion (Option.some.inj h)
          · rw [List.getElem?_set_ne hww] at h
            have := hinv.done_cursor w' h
            omega
      · rename_i hc
        injection hstep with hs
        subst hs
        refine ⟨hinv.res_len, ?_, hinv.cursor_le, hinv.claimed_eq, ?_, ?_, ?_,
          hinv.results_spec, ?_, ?_, hinv.failed_spec, ?_⟩
        · show (s.workers.set w WStatus.done).length = min K tasks.length
          rw [List.length_set]
          exact hinv.w_len
        · intro w' i h
          by_cases hww : w = w'
          · subst hww
            rw [List.getElem?_set_self hwlt] at h
            exact WStatus.noConfusion (Option.some.inj h)
          · rw [List.getElem?_set_ne hww] at h
            exact hinv.running_lt w' i h
        · intro w1 w2 i h1 h2
          by_cases h1w : w = w1
          · subst h1w
            rw [List.getElem?_set_self hwlt] at h1
            exact WStatus.noConfusion (Option.some.inj h1)
          · by_cases h2w : w = w2
            · subst h2w
              rw [List.getElem?_set_self hwlt] at h2
              exact WStatus.noConfusion (Option.some.inj h2)
            · rw [List.getElem?_set_ne h1w] at h1
              rw [List.getElem?_set_ne h2w] at h2
              exact hinv.running_inj w1 w2 i h1 h2
        · intro w' i e h
          by_cases hww : w = w'
          · subst hww
            rw [List.getElem?_set_self hwlt] at h
            exact WStatus.noConfusion (Option.some.inj h)
          · rw [List.getElem?_set_ne hww] at h
            exact hinv.crashed_spec w' i e h
        · intro i hi
          rcases hinv.coverage i hi with ⟨w', hw'⟩ | hres | ⟨w', e, hw'⟩
          · have hne : w ≠ w' := by
              intro hEq
              subst hEq
              exact WStatus.noConfusion (Option.some.inj (hw.symm.trans hw'))
            exact Or.inl ⟨w', by rw [List.getElem?_set_ne hne]; exact hw'⟩
          · exact Or.inr (Or.inl hres)
          · have hne : w ≠ w' := by
              intro hEq
              subst hEq
              exact WStatus.noConfusion (Option.some.inj (hw.symm.trans hw'))
            exact Or.inr (Or.inr ⟨w', e, by rw [List.getElem?_set_ne hne]; exact hw'⟩)
        · intro hf w' i e h
          by_cases hww : w = w'
          · subst hww
            rw [List.getElem?_set_self hwlt] at h
            exact WStatus.noConfusion (Option.some.inj h)
          · rw [List.getElem?_set_ne hww] at h
            exact hinv.failed_none hf w' i e h
        · intro w' h
          by_cases hww : w = w'
          · have hle := hinv.cursor_le
            show s.cursor = tasks.length
            omega
          · rw [List.getElem?_set_ne hww] at h
            exact hinv.done_cursor w' h
    · exact Option.noConfusion hstep
  | complete w =>
    simp only [applyAct] at hstep
    split at hstep
    · rename_i i hw
      have hwlt : w < s.workers.length := getElem?_some_lt hw
      have hilt : i < s.cursor := hinv.running_lt w i hw
      split at hstep
      · rename_i v ht
        injection hstep with hs
        subst hs
        have hireslt : i < s.results.length := by
          rw [hinv.res_len]
          exact Nat.lt_of_lt_of_le hilt hinv.cursor_le
        refine ⟨?_, ?_, hinv.cursor_le, hinv.claimed_eq, ?_, ?_, ?_, ?_, ?_, ?_,
          hinv.failed_spec, ?_⟩
        · show (s.results.set i (some v)).length = tasks.length
          rw [List.length_set]
          exact hinv.res_len
        · show (s.workers.set w WStatus.idle).length = min K tasks.length
          rw [List.length_set]
          exact hinv.w_len
        · intro w' j h
          by_cases hww : w = w'
          · subst hww
            rw [List.getElem?_set_self hwlt] at h
            exact WStatus.noConfusion (Option.some.inj h)
          · rw [List.getElem?_set_ne hww] at h
            exact hinv.running_lt w' j h
        · intro w1 w2 j h1 h2
          by_cases h1w : w = w1
          · subst h1w
            rw [List.getElem?_set_self hwlt] at h1
            exact WStatus.noConfusion (Option.some.inj h1)
          · by_cases h2w : w = w2
            · subst h2w
              rw [List.getElem?_set_self hwlt] at h2
              exact WStatus.noConfusion (Option.some.inj h2)
            · rw [List.getElem?_set_ne h1w] at h1
              rw [List.getElem?_set_ne h2w] at h2
              exact hinv.running_inj w1 w2 j h1 h2
        · intro w' j e h
          by_cases hww : w = w'
          · subst hww
            rw [List.getElem?_set_self hwlt] at h
            exact WStatus.noConfusion (Option.some.inj h)
          · rw [List.getElem?_set_ne hww] at h
            exact hinv.crashed_spec w' j e h
        · intro j v' h
          by_cases hij : i = j
          · subst hij
            rw [List.getElem?_set_self hireslt] at h
            have := Option.some.inj (Option.some.inj h)
            rw [← this]
            exact ht
          · rw [List.getElem?_set_ne hij] at h
            exact hinv.results_spec j v' h
        · intro j hj
          by_cases hij : i = j
          · subst hij
            exact Or.inr (Or.inl ⟨v, by rw [List.getElem?_set_self hireslt]⟩)
          · rcases hinv.coverage j hj with ⟨w', hw'⟩ | ⟨v', hres⟩ | ⟨w', e, hw'⟩
            · have hne : w ≠ w' := by
                intro hEq
                subst hEq
                exact hij (WStatus.running.inj (Option.some.inj (hw.symm.trans hw')))
              exact Or.inl ⟨w', by rw [List.getElem?_set_ne hne]; exact hw'⟩
            · exact Or.inr (Or.inl ⟨v', by rw [List.getElem?_set_ne hij]; exact hres⟩)
            · have hne : w ≠ w' := by
                intro hEq
                subst hEq
                exact WStatus.noConfusion (Option.some.inj (hw.symm.trans hw'))
              exact Or.inr (Or.inr ⟨w', e, by rw [List.getElem?_set_ne hne]; exact hw'⟩)
        · intro hf w' j e h
          by_cases hww : w = w'
          · subst hww
            rw [List.getElem?_set_self hwlt] at h
            exact WStatus.noConfusion (Option.some.inj h)
          · rw [List.getElem?_set_ne hww] at h
            exact hinv.failed_none hf w' j e h
        · intro w' h
          by_cases hww : w = w'
          · subst hww
            rw [List.getElem?_set_self hwlt] at h
            exact WStatus.noConfusion (Option.some.inj h)
          · rw [List.getElem?_set_ne hww] at h
            exact hinv.done_cursor w' h
      · rename_i e ht
        injection hstep with hs
        subst hs
        refine ⟨hinv.res_len, ?_, hinv.cursor_le, hinv.claimed_eq, ?_, ?_, ?_,
          hinv.results_spec, ?_, ?_, ?_, ?_⟩
        · show (s.workers.set w (WStatus.crashed i e)).length = min K tasks.length
          rw [List.length_set]
          exact hinv.w_len
        · intro w' j h
          by_cases hww : w = w'
          · subst hww
            rw [List.getElem?_set_self hwlt] at h
            exact WStatus.noConfusion (Option.some.inj h)
          · rw [List.getElem?_set_ne hww] at h
            exact hinv.running_lt w' j h
        · intro w1 w2 j h1 h2
          by_cases h1w : w = w1
          · subst h1w
            rw [List.getElem?_set_self hwlt] at h1
            exact WStatus.noConfusion (Option.some.inj h1)
          · by_cases h2w : w = w2
            · subst h2w
              rw [List.getElem?_set_self hwlt] at h2
              exact WStatus.noConfusion (Option.some.inj h2)
            · rw [List.getElem?_set_ne h1w] at h1
              rw [List.getElem?_set_ne h2w] at h2
              exact hinv.running_inj w1 w2 j h1 h2
        · intro w' j e' h
          by_cases hww : w = w'
          · subst hww
            rw [List.getElem?_set_self hwlt] at h
            have h2 := Option.some.inj h
            obtain ⟨hji, hee⟩ := WStatus.crashed.inj h2
            subst hji
            subst hee
            exact ⟨ht, hilt⟩
          · rw [List.getElem?_set_ne hww] at h
            exact hinv.crashed_spec w' j e' h
        · intro j hj
          rcases hinv.coverage j hj with ⟨w', hw'⟩ | hres | ⟨w', e', hw'⟩
          · by_cases hne : w = w'
            · subst hne
              have hji := WStatus.running.inj (Option.some.inj (hw.symm.trans hw'))
              subst hji
              exact Or.inr (Or.inr ⟨w, e, by rw [List.getElem?_set_self hwlt]⟩)
            · exact Or.inl ⟨w', by rw [List.getElem?_set_ne hne]; exact hw'⟩
          · exact Or.inr (Or.inl hres)
          · have hne : w ≠ w' := by
              intro hEq
              subst hEq
              exact WStatus.noConfusion (Option.some.inj (hw.symm.trans hw'))
            exact Or.inr (Or.inr ⟨w', e', by rw [List.getElem?_set_ne hne]; exact hw'⟩)
        · intro hf
          exact Option.noConfusion hf
        · intro e' hf
          have heq := Option.some.inj hf
          cases hfo : s.failed with
          | none =>
            rw [hfo] at heq
            simp only [Option.getD] at heq
            subst heq
            exact ⟨i, ht⟩
          | some e0 =>
            rw [hfo] at heq
            simp only [Option.getD] at heq
            subst heq
            exact hinv.failed_spec e0 hfo
        · intro w' h
          by_cases hww : w = w'
          · subst hww
            rw [List.getElem?_set_self hwlt] at h
            exact WStatus.noConfusion (Option.some.inj h)
          · rw [List.getElem?_set_ne hww] at h
            exact hinv.done_cursor w' h
      · exact Option.noConfusion hstep
    · exact Option.noConfusion hstep

theorem reachable_cinv {α ε : Type} {tasks : List (Except ε α)} {K : Nat}
    {s : CState α ε} (hr : Reachable tasks K s) : CInv tasks K s := by
  unfold Reachable at hr
  induction hr with
  | refl => exact cinv_init tasks K
  | tail hab hbc ih =>
    obtain ⟨a, ha⟩ := hbc
    exact cinv_step ha ih

theorem failed_mono_step {α ε : Type} {tasks : List (Except ε α)}
    {s s' : CState α ε} {a : CAction} {e : ε}
    (hstep : applyAct tasks a s = some s') (hf : s.failed = some e) :
    s'.failed = some e := by
  cases a with
  | poll w =>
    simp only [applyAct] at hstep
    split at hstep
    · split at hstep
      · injection hstep with hs
        subst hs
        exact hf
      · injection hstep with hs
        subst hs
        exact hf
    · exact Option.noConfusion hstep
  | complete w =>
    simp only [applyAct] at hstep
    split at hstep
    · rename_i i hw
      split at hstep
      · rename_i v ht
        injection hstep with hs
        subst hs
        exact hf
      · rename_i e' ht
        injection hstep with hs
        subst hs
        show some (s.failed.getD e') = some e
        rw [hf]
        rfl
      · exact Option.noConfusion hstep
    · exact Option.noConfusion hstep

theorem failed_mono_rtg {α ε : Type} {tasks : List (Except ε α)}
    {s t : CState α ε} {e : ε}
    (h : Relation.ReflTransGen (CStep tasks) s t) (hf : s.failed = some e) :
    t.failed = some e := by
  induction h with
  | refl => exact hf
  | tail hab hbc ih =>
    obtain ⟨a, ha⟩ := hbc
    exact failed_mono_step ha ih

theorem first_error_is_task_error {α ε : Type} {tasks : List (Except ε α)}
    {s s' : CState α ε} {e : ε}
    (hstep : CStep tasks s s') (hns : s.failed = none)
    (hs' : s'.failed = some e) :
    ∃ i : Nat, tasks[i]? = some (Except.error e) ∧
      ∃ w : Nat, s.workers[w]? = some (WStatus.running i) := by
  obtain ⟨a, ha⟩ := hstep
  cases a with
  | poll w =>
    simp only [applyAct] at ha
    split at ha
    · split at ha
      · injection ha with hs
        subst hs
        rw [hns] at hs'
        exact Option.noConfusion hs'
      · injection ha with hs
        subst hs
        rw [hns] at hs'
        exact Option.noConfusion hs'
    · exact Option.noConfusion ha
  | complete w =>
    simp only [applyAct] at ha
    split at ha
    · rename_i i hw
      split at ha
      · rename_i v ht
        injection ha with hs
        subst hs
        rw [hns] at hs'
        exact Option.noConfusion hs'
      · rename_i e' ht
        injection ha with hs
        subst hs
        have : (s.failed.getD e') = e := Option.some.inj hs'
        rw [hns] at this
        simp only [Option.getD] at this
        subst this
        exact ⟨i, ht, w, hw⟩
      · exact Option.noConfusion ha
    · exact Option.noConfusion ha

theorem final_cursor_full {α ε : Type} {tasks : List (Except ε α)} {K : Nat}
    {s : CState α ε} (hinv : CInv tasks K s) (hfin : IsFinal s) (hK : 1 ≤ K)
    (hnofail : s.failed = none) : s.cursor = tasks.length := by
  cases hn : tasks.length with
  | zero =>
    have := hinv.cursor_le
    omega
  | succ n' =>
    have hwlen := hinv.w_len
    have hpos : 0 < s.workers.length := by
      rw [hwlen, hn]
      omega
    obtain ⟨st, hst⟩ : ∃ st, s.workers[0]? = some st := by
      cases h : s.workers[0]? with
      | some st => exact ⟨st, rfl⟩
      | none =>
        rw [List.getElem?_eq_none_iff] at h
        omega
    have hmem : st ∈ s.workers := List.getElem?_mem hst
    rcases hfin _ hmem with hdone | ⟨i, e, hcr⟩
    · rw [hdone] at hst
      rw [← hn]
      exact hinv.done_cursor 0 hst
    · rw [hcr] at hst
      exact absurd hst (hinv.failed_none hnofail 0 i e)

/-! ### Claims C1, C5, C6: the concurrency scheduler -/

/-- C1 (confirmed): for every task sequence and positive batch size, in
every state where `Concurrency.run` has completed successfully (all workers
returned, no rejection), every index was claimed exactly once — so no two
workers ever claimed the same index and every task ran exactly once — and
`results[i]` holds the fulfilment value of `tasks[i]`, for every
interleaving of task completions. -/
theorem concurrency_success_results_in_order {α ε : Type}
    (tasks : List (Except ε α)) (K : Nat) (hK : 1 ≤ K) (s : CState α ε)
    (hr : Reachable tasks K s) (hfin : IsFinal s) (hnofail : s.failed = none) :
    s.claimed = List.range tasks.length ∧
    s.claimed.Nodup ∧
    (∀ i : Nat, i < tasks.length → s.claimed.count i = 1) ∧
    (∀ i : Nat, i < tasks.length →
      ∃ v, tasks[i]? = some (Except.ok v) ∧ s.results[i]? = some (some v)) := by
  have hinv := reachable_cinv hr
  have hcur : s.cursor = tasks.length := final_cursor_full hinv hfin hK hnofail
  have hclaimed : s.claimed = List.range tasks.length := by
    rw [hinv.claimed_eq, hcur]
  refine ⟨hclaimed, ?_, ?_, ?_⟩
  · rw [hclaimed]
    exact List.nodup_range _
  · intro i hi
    rw [hclaimed]
    exact List.count_eq_one_of_mem (List.nodup_range _) (List.mem_range.2 hi)
  · intro i hi
    have hic : i < s.cursor := by omega
    rcases hinv.coverage i hic with ⟨w', hw'⟩ | ⟨v, hres⟩ | ⟨w', e, hw'⟩
    · have hmem := List.getElem?_mem hw'
      rcases hfin _ hmem with hd | ⟨i', e', hc⟩
      · exact WStatus.noConfusion hd
      · exact WStatus.noConfusion hc
    · exact ⟨v, hinv.results_spec i v hres, hres⟩
    · exact absurd hw' (hinv.failed_none hnofail w' i e)

/-- C1 witness: a one-task run, scheduled to completion, has its result at
index 0. -/
theorem concurrency_success_results_in_order_witness :
    ({ cursor := 1, results := [some 1], workers := [WStatus.done],
       claimed := [0], failed := none } : CState Nat String).results[0]? =
      some (some 1) := by
  have h1 : CStep [(Except.ok 1 : Except String Nat)]
      (initState [Except.ok 1] 1)
      ⟨1, [none], [WStatus.running 0], [0], none⟩ :=
    ⟨CAction.poll 0, by decide⟩
  have h2 : CStep [(Except.ok 1 : Except String Nat)]
      ⟨1, [none], [WStatus.running 0], [0], none⟩
      ⟨1, [some 1], [WStatus.idle], [0], none⟩ :=
    ⟨CAction.complete 0, by decide⟩
  have h3 : CStep [(Except.ok 1 : Except String Nat)]
      ⟨1, [some 1], [WStatus.idle], [0], none⟩
      ⟨1, [some 1], [WStatus.done], [0], none⟩ :=
    ⟨CAction.poll 0, by decide⟩
  have hr : Reachable [(Except.ok 1 : Except String Nat)] 1
      ⟨1, [some 1], [WStatus.done], [0], none⟩ :=
    Relation.ReflTransGen.head h1 (Relation.ReflTransGen.head h2
      (Relation.ReflTransGen.head h3 Relation.ReflTransGen.refl))
  have hfin : IsFinal (⟨1, [some 1], [WStatus.done], [0], none⟩ :
      CState Nat String) := by
    intro st hst
    rw [List.mem_singleton] at hst
    subst hst
    exact Or.inl rfl
  obtain ⟨-, -, -, h⟩ := concurrency_success_results_in_order
    [(Except.ok 1 : Except String Nat)] 1 (by decide)
    ⟨1, [some 1], [WStatus.done], [0], none⟩ hr hfin rfl
  obtain ⟨v, hv, hres⟩ := h 0 (by decide)
  have hv1 : Except.ok (ε := String) 1 = Except.ok v := Option.some.inj hv
  have : v = 1 := (Except.ok.inj hv1).symm
  subst this
  exact hres

/-- C6 (confirmed): exactly `min(K, N)` workers are launched; the worker
pool keeps that size in every reachable state; the number of simultaneously
in-flight tasks never exceeds `min(K, N)`; and a worker that already has a
task in flight cannot claim another (its claim loop is suspended), so each
worker executes its claimed tasks strictly sequentially. -/
theorem concurrency_bounded_in_flight {α ε : Type}
    (tasks : List (Except ε α)) (K : Nat) (hK : 1 ≤ K) (s : CState α ε)
    (hr : Reachable tasks K s) :
    (initState tasks K : CState α ε).workers.length = min K tasks.length ∧
    s.workers.length = min K tasks.length ∧
    numInFlight s ≤ min K tasks.length ∧
    (∀ (w i : Nat), s.workers[w]? = some (WStatus.running i) →
      applyAct tasks (CAction.poll w) s = none) := by
  have hinv := reachable_cinv hr
  refine ⟨List.length_replicate _ _, hinv.w_len, ?_, ?_⟩
  · calc numInFlight s ≤ s.workers.length := List.length_filter_le _ _
      _ = min K tasks.length := hinv.w_len
  · intro w i h
    simp only [applyAct, h]

/-- C6 witness: with two workers allowed and one task, only
`min(2, 1) = 1` worker is launched. -/
theorem concurrency_bounded_in_flight_witness :
    (initState [(Except.ok 1 : Except String Nat)] 2 :
        CState Nat String).workers.length = min 2 1 ∧
    numInFlight (initState [(Except.ok 1 : Except String Nat)] 2 :
        CState Nat String) ≤ min 2 1 := by
  obtain ⟨h1, -, h3, -⟩ := concurrency_bounded_in_flight
    [(Except.ok 1 : Except String Nat)] 2 (by decide)
    (initState [Except.ok 1] 2) Relation.ReflTransGen.refl
  exact ⟨h1, h3⟩

/-- C5 (confirmed): when some task's outcome is a rejection, every
completed run for every interleaving ends with `Promise.all` rejected: the
run's outcome is the error of the temporally first task rejection (a later
rejection or fulfilment never replaces it — it is discarded), that error is
a genuine task error raised while a worker was executing its claimed index,
and any sibling worker that ran to a normal return did so only after the
shared cursor had swept past every index, i.e. the failure did not stop
siblings from claiming and executing the remaining indices. -/
theorem concurrency_failure_first_error {α ε : Type}
    (tasks : List (Except ε α)) (K : Nat) (hK : 1 ≤ K)
    (hfail : ∃ i : Nat, ∃ e, tasks[i]? = some (Except.error e))
    (t : CState α ε) (hr : Reachable tasks K t) (hfin : IsFinal t) :
    (∃ e, t.failed = some e ∧
      ∃ i : Nat, tasks[i]? = some (Except.error e)) ∧
    (∀ (s1 s2 : CState α ε) (e : ε), CStep tasks s1 s2 →
      Relation.ReflTransGen (CStep tasks) s2 t →
      s1.failed = none → s2.failed = some e → t.failed = some e) ∧
    (∀ (s1 s2 : CState α ε) (e : ε), CStep tasks s1 s2 →
      s1.failed = none → s2.failed = some e →
      ∃ i : Nat, tasks[i]? = some (Except.error e) ∧
        ∃ w : Nat, s1.workers[w]? = some (WStatus.running i)) ∧
    (∀ w : Nat, t.workers[w]? = some WStatus.done →
      t.claimed = List.range tasks.length) := by
  have hinv := reachable_cinv hr
  refine ⟨?_, ?_, ?_, ?_⟩
  · cases hf : t.failed with
    | some e => exact ⟨e, rfl, hinv.failed_spec e hf⟩
    | none =>
      exfalso
      obtain ⟨i, e, hie⟩ := hfail
      have hcur : t.cursor = tasks.length := final_cursor_full hinv hfin hK hf
      have hi : i < t.cursor := by
        have := getElem?_some_lt hie
        omega
      rcases hinv.coverage i hi with ⟨w', hw'⟩ | ⟨v, hres⟩ | ⟨w', e', hw'⟩
      · have hmem := List.getElem?_mem hw'
        rcases hfin _ hmem with hd | ⟨i', e', hc⟩
        · exact WStatus.noConfusion hd
        · exact WStatus.noConfusion hc
      · have := hinv.results_spec i v hres
        rw [hie] at this
        exact Except.noConfusion (Option.some.inj this)
      · exact hinv.failed_none hf w' i e' hw'
  · intro s1 s2 e hstep hrest hns hs2
    exact failed_mono_rtg hrest hs2
  · intro s1 s2 e hstep hns hs2
    exact first_error_is_task_error hstep hns hs2
  · intro w hw
    have hd := hinv.done_cursor w hw
    rw [hinv.claimed_eq, hd]

/-- C5 witness: a single always-failing task crashes its worker and the
run's outcome is that first error. -/
theorem concurrency_failure_first_error_witness :
    ({ cursor := 1, results := [none],
       workers := [WStatus.crashed 0 "boom"], claimed := [0],
       failed := some "boom" } : CState Nat String).failed = some "boom" := by
  have h1 : CStep [(Except.error "boom" : Except String Nat)]
      (initState [Except.error "boom"] 1)
      ⟨1, [none], [WStatus.running 0], [0], none⟩ :=
    ⟨CAction.poll 0, by decide⟩
  have h2 : CStep [(Except.error "boom" : Except String Nat)]
      ⟨1, [none], [WStatus.running 0], [0], none⟩
      ⟨1, [none], [WStatus.crashed 0 "boom"], [0], some "boom"⟩ :=
    ⟨CAction.complete 0, by decide⟩
  have hr : Reachable [(Except.error "boom" : Except String Nat)] 1
      ⟨1, [none], [WStatus.crashed 0 "boom"], [0], some "boom"⟩ :=
    Relation.ReflTransGen.head h1 (Relation.ReflTransGen.head h2
      Relation.ReflTransGen.refl)
  have hfin : IsFinal (⟨1, [none], [WStatus.crashed 0 "boom"], [0],
      some "boom"⟩ : CState Nat String) := by
    intro st hst
    rw [List.mem_singleton] at hst
    subst hst
    exact Or.inr ⟨0, "boom", rfl⟩
  exact (concurrency_failure_first_error
    [(Except.error "boom" : Except String Nat)] 1 (by decide)
    ⟨0, "boom", rfl⟩
    ⟨1, [none], [WStatus.crashed 0 "boom"], [0], some "boom"⟩ hr hfin).2.1
    ⟨1, [none], [WStatus.running 0], [0], none⟩
    ⟨1, [none], [WStatus.crashed 0 "boom"], [0], some "boom"⟩
    "boom" h2 Relation.ReflTransGen.refl rfl rfl

/-! ### Claims C9 and C10: the orchestrator -/

theorem buildTasks_all_ok {ε : Type} (pathFor : String → Except ε String)
    (hok : ∀ q, ∃ p, pathFor q = Except.ok p) :
    ∀ lines : List (String × String),
      Fetcher.buildTasks lines pathFor =
        Except.ok (lines.map (fun pr => (pathOf pathFor pr.1, pr.2))) := by
  intro lines
  induction lines with
  | nil => rfl
  | cons hd tl ih =>
    obtain ⟨q0, l0⟩ := hd
    obtain ⟨p0, hp0⟩ := hok q0
    have hpath : pathOf pathFor q0 = p0 := by
      unfold pathOf
      rw [hp0]
    simp only [Fetcher.buildTasks, hp0, ih, List.map_cons, hpath]

theorem buildTasks_first_error {ε : Type} (pathFor : String → Except ε String)
    (e : ε) :
    ∀ (pre : List (String × String)) (q l : String)
      (post : List (String × String)),
      (∀ p ∈ pre, ∃ pa, pathFor p.1 = Except.ok pa) →
      pathFor q = Except.error e →
      Fetcher.buildTasks (pre ++ (q, l) :: post) pathFor = Except.error e := by
  intro pre
  induction pre with
  | nil =>
    intro q l post hpre hq
    simp only [List.nil_append, Fetcher.buildTasks, hq]
  | cons hd tl ih =>
    intro q l post hpre hq
    obtain ⟨q0, l0⟩ := hd
    obtain ⟨pa, hpa⟩ := hpre (q0, l0) (by simp)
    have hrec := ih q l post (fun p hp => hpre p (by simp [hp])) hq
    simp only [List.cons_append, Fetcher.buildTasks, hpa, List.append_eq, hrec]

/-- C9 (confirmed): after a successful fetch, `Fetcher.run` transforms the
snapshot with its quote list, resolves one path per produced line eagerly,
and hands the scheduler (batch size 4) one task per `WriteLine`; task `i`
is exactly one invocation of the injected sink with arguments
`(pathFor(code_i), line_i)`, and in every successfully completed schedule
every task — hence every sink invocation — was claimed exactly once. -/
theorem fetcher_run_schedules_sink_calls {ε : Type} (c : HttpClientState)
    (quotes : List String) (url : String)
    (attempts : Nat → Except ε RateData) (data : RateData)
    (pathFor : String → Except ε String)
    (hget : (HttpClient.get c url attempts).result = Except.ok data)
    (hok : ∀ q, ∃ p, pathFor q = Except.ok p) :
    Fetcher.runModel c quotes url attempts pathFor =
      Except.ok (FetcherPhase.scheduled
        ((dataToLines data quotes).map
          (fun pr => (pathOf pathFor pr.1, pr.2)))) ∧
    (∀ (i : Nat) (q l : String) (ε' : Type)
        (sink : String → String → Except ε' Unit),
      (dataToLines data quotes)[i]? = some (q, l) →
      (sinkTasks sink ((dataToLines data quotes).map
          (fun pr => (pathOf pathFor pr.1, pr.2))))[i]? =
        some (sink (pathOf pathFor q) l)) ∧
    (∀ (ε' : Type) (sink : String → String → Except ε' Unit)
        (s : CState Unit ε'),
      Reachable (sinkTasks sink ((dataToLines data quotes).map
          (fun pr => (pathOf pathFor pr.1, pr.2)))) fetcherBatchSize s →
      IsFinal s → s.failed = none →
      s.claimed = List.range (dataToLines data quotes).length) := by
  refine ⟨?_, ?_, ?_⟩
  · unfold Fetcher.runModel
    rw [hget]
    show Except.ok (Fetcher.prepare quotes data pathFor) = _
    unfold Fetcher.prepare
    rw [buildTasks_all_ok pathFor hok]
  · intro i q l ε' sink h
    unfold sinkTasks
    rw [List.getElem?_map, List.getElem?_map, h]
    rfl
  · intro ε' sink s hr hfin hnf
    have hinv := reachable_cinv hr
    have hcur := final_cursor_full hinv hfin (by decide) hnf
    rw [hinv.claimed_eq, hcur]
    unfold sinkTasks
    rw [List.length_map, List.length_map]

/-- C9 witness: a concrete run schedules the single expected sink call and
a completed schedule of it claims index 0 exactly once. -/
theorem fetcher_run_schedules_sink_calls_witness :
    (sinkTasks (fun _ _ => (Except.ok () : Except String Unit))
        ((dataToLines ⟨"d", [("USD", JsRate.num 1)]⟩ ["USD"]).map
          (fun pr => (pathOf (fun q => (Except.ok ("/" ++ q) :
            Except String String)) pr.1, pr.2))))[0]? =
      some ((fun _ _ => (Except.ok () : Except String Unit)) "/USD" "d,1") := by
  have h := (fetcher_run_schedules_sink_calls
    (HttpClient.construct ⟨none, none, none⟩) ["USD"] "u"
    (fun _ => Except.ok ⟨"d", [("USD", JsRate.num 1)]⟩)
    ⟨"d", [("USD", JsRate.num 1)]⟩
    (fun q => (Except.ok ("/" ++ q) : Except String String))
    rfl (fun q => ⟨"/" ++ q, rfl⟩)).2.1 0 "USD" "d,1" String
    (fun _ _ => (Except.ok () : Except String Unit)) (by decide)
  rw [h]

/-- C10 (confirmed): `Fetcher.run` resolves `options.path(quote)` eagerly,
one call per produced line, while building the task array and before the
scheduler starts; if the path callback throws at some line (all earlier
lines having resolved), that error propagates as the phase outcome, nothing
is ever scheduled, and so no sink invocation (no file write) occurs in that
run. -/
theorem fetcher_pathFor_error_before_sink {ε : Type}
    (quotes : List String) (data : RateData)
    (pathFor : String → Except ε String) (e : ε)
    (pre post : List (String × String)) (q l : String)
    (hsplit : dataToLines data quotes = pre ++ (q, l) :: post)
    (hpre : ∀ p ∈ pre, ∃ pa, pathFor p.1 = Except.ok pa)
    (hq : pathFor q = Except.error e) :
    Fetcher.prepare quotes data pathFor = FetcherPhase.pathError e ∧
    (∀ ts, ¬ Fetcher.prepare quotes data pathFor = FetcherPhase.scheduled ts) ∧
    (∀ (c : HttpClientState) (url : String)
        (attempts : Nat → Except ε RateData),
      (HttpClient.get c url attempts).result = Except.ok data →
      Fetcher.runModel c quotes url attempts pathFor =
        Except.ok (FetcherPhase.pathError e)) := by
  have hb : Fetcher.buildTasks (dataToLines data quotes) pathFor =
      Except.error e := by
    rw [hsplit]
    exact buildTasks_first_error pathFor e pre q l post hpre hq
  have hprep : Fetcher.prepare quotes data pathFor =
      FetcherPhase.pathError e := by
    unfold Fetcher.prepare
    rw [hb]
  refine ⟨hprep, ?_, ?_⟩
  · intro ts hcontra
    rw [hprep] at hcontra
    exact FetcherPhase.noConfusion hcontra
  · intro c url attempts hget
    unfold Fetcher.runModel
    rw [hget]
    show Except.ok (Fetcher.prepare quotes data pathFor) = _
    rw [hprep]

/-- C10 witness: a throwing path callback surfaces as the phase outcome
before anything is scheduled. -/
theorem fetcher_pathFor_error_before_sink_witness :
    Fetcher.prepare ["USD"] ⟨"d", [("USD", JsRate.num 1)]⟩
        (fun _ => (Except.error "disk gone" : Except String String)) =
      FetcherPhase.pathError "disk gone" :=
  (fetcher_pathFor_error_before_sink ["USD"] ⟨"d", [("USD", JsRate.num 1)]⟩
    (fun _ => (Except.error "disk gone" : Except String String)) "disk gone"
    [] [] "USD" "d,1" (by decide)
    (fun p hp => absurd hp (List.not_mem_nil p)) rfl).1
